import Mathlib

/-
Verification development for the Tambo Schema Validation & Evolution Engine.

The data shapes are embedded from src/tambo/core/types.ts.  The repository
ships only the type declarations, documentation and tests for the engine;
the bodies of SchemaValidator.ts, EvolutionEngine.ts and TamboEngine.ts are
not present under src/, so the executable behaviour of the Validator, the
Evolution Applier and the Engine state machine is modelled from the
specification (spec sections 4.1, 4.2, 4.3 and 3), as marked on each
definition below.
-/

namespace Tambo

/-- Property values.  types.ts uses `Record<string, any>` for component
props; untrusted payloads are JSON-shaped scalars, plus a marker for
function-typed (non-serializable) entries which sanitization strips. -/
inductive Value where
  | vnull
  | vbool (b : Bool)
  | vnum (n : Int)
  | vstr (s : String)
  | vfn
deriving DecidableEq

/-- A property mapping, embedded as an association list.  A TypeScript
`Record<string, any>` always has pairwise distinct keys; list states with
duplicate keys are artifacts of the embedding. -/
abbrev Props := List (String × Value)

/-- AnimationConfig from types.ts; pass-through data for the renderer. -/
structure AnimationConfig where
  atype : String
  duration : Option Nat
  delay : Option Nat
  easing : Option String
  stagger : Option Nat
deriving DecidableEq

/-- StyleConfig from types.ts. -/
structure StyleConfig where
  className : Option String
  css : List (String × String)
  animation : Option AnimationConfig
deriving DecidableEq

/-- ValidationRule from types.ts. -/
structure ValidationRule where
  rtype : String
  value : Option Value
  message : String
deriving DecidableEq

/-- FeedbackConfig from types.ts. -/
structure FeedbackConfig where
  success : Option String
  error : Option String
  loading : Option String
deriving DecidableEq

/-- The interaction kinds of ActionSchema.type in types.ts. -/
inductive ActionType where
  | click
  | submit
  | change
  | hover
  | focus
  | custom
deriving DecidableEq

/-- The operation field of SchemaUpdate (types.ts lines 120-125):
exactly add, remove, update and morph; no reorder constructor exists. -/
inductive SchemaUpdateOp where
  | add
  | remove
  | update
  | morph
deriving DecidableEq

/-- The type field of EvolutionAction (types.ts lines 196-202):
add, remove, update, morph and reorder. -/
inductive EvolutionActionType where
  | add
  | remove
  | update
  | morph
  | reorder
deriving DecidableEq

/-- The natural inclusion of SchemaUpdate operations into the
evolution-operation kinds: each of the four names maps to the
like-named evolution kind. -/
def schemaUpdateOpToEvolution : SchemaUpdateOp → EvolutionActionType
  | .add => .add
  | .remove => .remove
  | .update => .update
  | .morph => .morph

/-- ConditionSchema.type in types.ts. -/
inductive ConditionType where
  | visibility
  | enabled
  | style
deriving DecidableEq

/-- ConditionSchema from types.ts.  It carries an expression string and
two values; it has no target-id field. -/
structure ConditionSchema where
  id : String
  ctype : ConditionType
  expression : String
  trueValue : Value
  falseValue : Value
deriving DecidableEq

mutual

/-- ComponentSchema from types.ts: id, type tag (open string enum), props,
optional children / actions / conditions / style.  The optional arrays are
embedded as lists (absent = empty). -/
inductive ComponentSchema where
  | mk (cid : String) (ctype : String) (props : Props)
       (children : List ComponentSchema) (actions : List ActionSchema)
       (conditions : List ConditionSchema) (style : Option StyleConfig)

/-- ActionSchema from types.ts. -/
inductive ActionSchema where
  | mk (aid : String) (atype : ActionType) (intent : String)
       (handler : Option String) (updates : List SchemaUpdate)
       (validation : List ValidationRule) (feedback : Option FeedbackConfig)

/-- SchemaUpdate from types.ts: a declarative, action-triggered update;
its operation is a SchemaUpdateOp and its payload a partial component. -/
inductive SchemaUpdate where
  | mk (target : String) (operation : SchemaUpdateOp)
       (schema : Option SchemaPatch) (animation : Option AnimationConfig)

/-- The `Partial<ComponentSchema>` payload of SchemaUpdate in types.ts:
every field optional. -/
inductive SchemaPatch where
  | mk (pid : Option String) (ptype : Option String) (pprops : Option Props)
       (pchildren : Option (List ComponentSchema))
       (pactions : Option (List ActionSchema))
       (pconditions : Option (List ConditionSchema))
       (pstyle : Option (Option StyleConfig))

end

namespace ComponentSchema

def cid : ComponentSchema → String
  | .mk i _ _ _ _ _ _ => i

def ctype : ComponentSchema → String
  | .mk _ t _ _ _ _ _ => t

def props : ComponentSchema → Props
  | .mk _ _ p _ _ _ _ => p

def children : ComponentSchema → List ComponentSchema
  | .mk _ _ _ ch _ _ _ => ch

def actions : ComponentSchema → List ActionSchema
  | .mk _ _ _ _ ac _ _ => ac

def conditions : ComponentSchema → List ConditionSchema
  | .mk _ _ _ _ _ co _ => co

def style : ComponentSchema → Option StyleConfig
  | .mk _ _ _ _ _ _ st => st

end ComponentSchema

namespace ActionSchema

def updates : ActionSchema → List SchemaUpdate
  | .mk _ _ _ _ us _ _ => us

end ActionSchema

namespace SchemaUpdate

def target : SchemaUpdate → String
  | .mk t _ _ _ => t

def operation : SchemaUpdate → SchemaUpdateOp
  | .mk _ o _ _ => o

end SchemaUpdate

/-- Layout fields of LayoutConfig from types.ts without the responsive
override (used inside ResponsiveConfig, whose TypeScript form is a
`Partial<LayoutConfig>`; the unbounded nesting is cut at one level, which
loses nothing the engine inspects). -/
structure LayoutCore where
  mode : String
  columns : Option Nat
  rows : Option Nat
  gap : Option String
  padding : Option String
  areas : List (List String)
deriving DecidableEq

/-- ResponsiveConfig from types.ts. -/
structure ResponsiveConfig where
  mobile : Option LayoutCore
  tablet : Option LayoutCore
  desktop : Option LayoutCore
deriving DecidableEq

/-- LayoutConfig from types.ts.  The mode is kept as a string because a
candidate document is untrusted input; the Validator checks it against
the recognized kinds. -/
structure LayoutConfig where
  mode : String
  columns : Option Nat
  rows : Option Nat
  gap : Option String
  padding : Option String
  responsive : Option ResponsiveConfig
  areas : List (List String)
deriving DecidableEq

/-- SchemaMetadata from types.ts. -/
structure SchemaMetadata where
  intent : String
  timestamp : String
  conversationId : String
  userId : Option String
  processedAt : Option String
  engineVersion : Option String
  tags : List String
deriving DecidableEq

/-- ThemeConfig from types.ts. -/
structure ThemeConfig where
  mode : String
  primaryColor : Option String
  accentColor : Option String
  fontFamily : Option String
deriving DecidableEq

/-- TamboSchema from types.ts: one immutable, versioned snapshot of the
full UI description.  types.ts declares version as a string; the spec
(section 3) requires a monotonically increasing version tag, so the tag is
embedded as a natural number.  The type field is a string checked by the
Validator against the recognized kinds. -/
structure TamboSchema where
  id : String
  version : Nat
  stype : String
  layout : LayoutConfig
  components : List ComponentSchema
  metadata : SchemaMetadata
  theme : Option ThemeConfig

/-- ComponentDefinition from types.ts, restricted to the lookup contract
the core consumes (spec section 6): the props predicate and the default
props.  The React component itself is rendering, out of scope. -/
structure ComponentDefinition where
  propsValidator : Props → Bool
  defaultProps : Props
  category : Option String
  description : Option String

/-- The Component Registry as consumed by the core: a read-only mapping
from type tags to definitions (spec section 6). -/
abbrev Registry := List (String × ComponentDefinition)

/-- Registry lookup: `resolve(type)`. -/
def regFind (reg : Registry) (t : String) : Option ComponentDefinition :=
  (reg.find? (fun p => p.1 = t)).map Prod.snd

mutual

/-- Depth-first preorder list of the node ids of one component subtree. -/
def nodeIds : ComponentSchema → List String
  | .mk i _ _ ch _ _ _ => i :: nodeIdsList ch

/-- Depth-first preorder list of the node ids of a forest. -/
def nodeIdsList : List ComponentSchema → List String
  | [] => []
  | c :: cs => nodeIds c ++ nodeIdsList cs

end

/-- First value bound to a key in a property mapping. -/
def lookupProp (k : String) : Props → Option Value
  | [] => none
  | q :: l => if q.1 = k then some q.2 else lookupProp k l

/-- Key-wise merge of two property mappings, the second overriding the
first — the JavaScript spread `{...base, ...over}`: base entries keep
their place (values overridden key-wise by over), then the entries of
over whose keys are new are appended.  Used with the registry defaults as
base for enrichment (defaults beneath, never over, the candidate's own
props, spec 4.3), and with the target's props as base for the shallow
merge of the update operation (spec 4.2). -/
def mergeProps (base over : Props) : Props :=
  base.map (fun q =>
    match lookupProp q.1 over with
    | some v => (q.1, v)
    | none => q)
  ++ over.filter (fun q => (lookupProp q.1 base).isNone)

/-- Scan for the first repeated element: walking the list left to right
with the set of ids seen so far, report the id at the first position whose
id was already seen (spec 4.1 check 2: first duplicate encountered in
preorder is reported). -/
def firstDupAux (seen : List String) : List String → Option String
  | [] => none
  | x :: xs => if x ∈ seen then some x else firstDupAux (x :: seen) xs

/-- First duplicate of a list, none when all elements are distinct. -/
def firstDup (l : List String) : Option String :=
  firstDupAux [] l

/-- Depth-first preorder search for the node with the given id
(spec 4.2 traversal rule). -/
def findNode (t : String) : List ComponentSchema → Option ComponentSchema
  | [] => none
  | .mk i ty pr ch ac co st :: cs =>
    if i = t then some (.mk i ty pr ch ac co st)
    else
      match findNode t ch with
      | some n => some n
      | none => findNode t cs

/-- ValidationResult from types.ts. -/
structure ValidationResult where
  valid : Bool
  schema : Option TamboSchema
  errors : List String
  warnings : List String

/-- The recognized layout kinds (types.ts LayoutConfig.mode). -/
def layoutModes : List String :=
  ["grid", "flex", "stack", "masonry", "split"]

/-- The recognized top-level document kinds (types.ts TamboSchema.type). -/
def schemaTypes : List String :=
  ["screen", "component"]

mutual

/-- Modelled from the spec (4.1 check 3, SchemaValidator.ts is not in the
repository): every node's type tag must exist in the Component Registry;
unknown types are reported as errors, not silently dropped. -/
def typeErrors (reg : Registry) : ComponentSchema → List String
  | .mk i ty _ ch _ _ _ =>
    (match regFind reg ty with
     | some _ => []
     | none => ["Unknown component type: " ++ ty ++ " (node " ++ i ++ ")"])
    ++ typeErrorsList reg ch

def typeErrorsList (reg : Registry) : List ComponentSchema → List String
  | [] => []
  | c :: cs => typeErrors reg c ++ typeErrorsList reg cs

end

mutual

/-- Modelled from the spec (4.1 check 4): for each node the Registry's
predicate for its type is invoked on the node's property mapping; a
failure is an error naming the node id and type. -/
def propErrors (reg : Registry) : ComponentSchema → List String
  | .mk i ty pr ch _ _ _ =>
    (match regFind reg ty with
     | some d => if d.propsValidator pr then [] else ["Invalid props for node " ++ i ++ " of type " ++ ty]
     | none => [])
    ++ propErrorsList reg ch

def propErrorsList (reg : Registry) : List ComponentSchema → List String
  | [] => []
  | c :: cs => propErrors reg c ++ propErrorsList reg cs

end

/-- Targets referenced by the declarative updates of one action. -/
def actionTargets (a : ActionSchema) : List String :=
  a.updates.map SchemaUpdate.target

mutual

/-- All action-update targets referenced anywhere in a subtree. -/
def refTargets : ComponentSchema → List String
  | .mk _ _ _ ch ac _ _ =>
    (ac.map actionTargets).flatten ++ refTargetsList ch

def refTargetsList : List ComponentSchema → List String
  | [] => []
  | c :: cs => refTargets c ++ refTargetsList cs

end

/-- Modelled from the spec (4.1 check 5): action update targets must
resolve to ids within the same document; each dangling target is an
accumulated error. -/
def refErrors (D : TamboSchema) : List String :=
  (refTargetsList D.components).filterMap (fun t =>
    if t ∈ nodeIdsList D.components then none
    else some ("Dangling reference to id: " ++ t))

/-- The maximum string length sanitization enforces (spec 4.1 check 6). -/
def maxStringLength : Nat := 10000

/-- Modelled from the spec (4.1 check 6): an allow-list pass over one
property mapping that strips function-typed (non-serializable) entries
and truncates over-long strings; it never rejects, it only narrows.
Returns the narrowed mapping and a warning for everything changed. -/
def sanitizeProps (i : String) : Props → Props × List String
  | [] => ([], [])
  | (k, v) :: l =>
    let r := sanitizeProps i l
    match v with
    | .vfn => (r.1, ("Stripped non-serializable prop " ++ k ++ " on node " ++ i) :: r.2)
    | .vstr s =>
      if maxStringLength < s.length then
        ((k, Value.vstr (s.take maxStringLength)) :: r.1,
          ("Truncated over-long string prop " ++ k ++ " on node " ++ i) :: r.2)
      else ((k, v) :: r.1, r.2)
    | _ => ((k, v) :: r.1, r.2)

mutual

/-- Sanitization over a whole subtree (spec 4.1 check 6). -/
def sanitizeNode : ComponentSchema → ComponentSchema × List String
  | .mk i ty pr ch ac co st =>
    let p := sanitizeProps i pr
    let c := sanitizeList ch
    (.mk i ty p.1 c.1 ac co st, p.2 ++ c.2)

def sanitizeList : List ComponentSchema → List ComponentSchema × List String
  | [] => ([], [])
  | c :: cs =>
    let r := sanitizeNode c
    let rs := sanitizeList cs
    (r.1 :: rs.1, r.2 ++ rs.2)

end

/-- Modelled from the spec (4.1, SchemaValidator.ts is not in the
repository): `validate(candidate)` runs the checks in order, short-
circuiting on the structural failures (shape, identifier uniqueness) and
accumulating the semantic ones (type resolution, prop shape, cross-
reference integrity); sanitization then narrows the accepted document and
records warnings.  Errors are returned in the result, never thrown. -/
def validate (reg : Registry) (D : TamboSchema) : ValidationResult :=
  if D.stype ∈ schemaTypes ∧ D.layout.mode ∈ layoutModes then
    match firstDup (nodeIdsList D.components) with
    | some d => ⟨false, none, ["Duplicate component id: " ++ d], []⟩
    | none =>
      if (typeErrorsList reg D.components ++ propErrorsList reg D.components
          ++ refErrors D).isEmpty then
        ⟨true, some { D with components := (sanitizeList D.components).1 }, [],
          (sanitizeList D.components).2⟩
      else ⟨false, none,
        typeErrorsList reg D.components ++ propErrorsList reg D.components ++ refErrors D, []⟩
  else ⟨false, none, ["Invalid document shape"], []⟩

/-- Modelled from the spec (4.2 update): the partial node definition an
update operation carries.  The spec names exactly these merged fields:
the props mapping is merged key-wise; children, actions and conditions,
if present in the partial, replace wholesale. -/
structure NodePatch where
  pprops : Props
  pchildren : Option (List ComponentSchema)
  pactions : Option (List ActionSchema)
  pconditions : Option (List ConditionSchema)

/-- Modelled from the spec (sections 3 and 4.2; EvolutionEngine.ts is not
in the repository): the evolution-operation set, with the payload each
operation needs.  types.ts (EvolutionAction) declares the kind tags,
an optional target, an optional schema payload and an optional position;
the reorder payload (the new child order) appears only in the spec.
The animation directive is pass-through data the core never interprets
and is omitted from the operational form. -/
inductive EvolutionOp where
  | add (parent : Option String) (node : ComponentSchema) (position : Option Nat)
  | remove (target : String)
  | update (target : String) (patch : NodePatch)
  | morph (target : String) (node : ComponentSchema)
  | reorder (target : Option String) (order : List String)

/-- The kind tag of an evolution operation, in the types.ts enumeration. -/
def EvolutionOp.kind : EvolutionOp → EvolutionActionType
  | .add _ _ _ => .add
  | .remove _ => .remove
  | .update _ _ => .update
  | .morph _ _ => .morph
  | .reorder _ _ => .reorder

/-- EvolutionError taxonomy from the spec (section 7). -/
inductive EvolutionError where
  | TargetNotFound
  | InvalidReorder
  | DuplicateId
deriving DecidableEq

/-- Insert at a position, appending when no position is given or the
position is past the end (spec 4.2 add; JavaScript splice semantics). -/
def insertAt (l : List ComponentSchema) (pos : Option Nat) (a : ComponentSchema) : List ComponentSchema :=
  match pos with
  | none => l ++ [a]
  | some n => l.take n ++ a :: l.drop n

/-- Merge a partial node definition into a node (spec 4.2 update): props
key-wise with the partial winning; children, actions and conditions
replaced wholesale when present; id, type and style untouched. -/
def applyPatch (p : NodePatch) : ComponentSchema → ComponentSchema
  | .mk i ty pr ch ac co st =>
    .mk i ty (mergeProps pr p.pprops) (p.pchildren.getD ch)
      (p.pactions.getD ac) (p.pconditions.getD co) st

mutual

/-- Shallow-merge the patch into the first preorder node with the given
id (spec 4.2 update); the flag reports whether a target was found. -/
def updateFirst (t : String) (p : NodePatch) : ComponentSchema → ComponentSchema × Bool
  | .mk i ty pr ch ac co st =>
    if i = t then (applyPatch p (.mk i ty pr ch ac co st), true)
    else (.mk i ty pr (updateFirstList t p ch).1 ac co st, (updateFirstList t p ch).2)

def updateFirstList (t : String) (p : NodePatch) : List ComponentSchema → List ComponentSchema × Bool
  | [] => ([], false)
  | c :: cs =>
    if (updateFirst t p c).2 then ((updateFirst t p c).1 :: cs, true)
    else (c :: (updateFirstList t p cs).1, (updateFirstList t p cs).2)

end

mutual

/-- Excise the subtree rooted at the first preorder node with the given
id (spec 4.2 remove). -/
def removeFirstList (t : String) : List ComponentSchema → List ComponentSchema × Bool
  | [] => ([], false)
  | .mk i ty pr ch ac co st :: cs =>
    if i = t then (cs, true)
    else
      let r := removeFirstList t ch
      if r.2 then (ComponentSchema.mk i ty pr r.1 ac co st :: cs, true)
      else
        let rs := removeFirstList t cs
        (ComponentSchema.mk i ty pr ch ac co st :: rs.1, rs.2)

end

mutual

/-- Insert a node among the children of the first preorder node with the
given id, at the given position (spec 4.2 add). -/
def addUnderList (t : String) (node : ComponentSchema) (pos : Option Nat) : List ComponentSchema → List ComponentSchema × Bool
  | [] => ([], false)
  | .mk i ty pr ch ac co st :: cs =>
    if i = t then (ComponentSchema.mk i ty pr (insertAt ch pos node) ac co st :: cs, true)
    else
      let r := addUnderList t node pos ch
      if r.2 then (ComponentSchema.mk i ty pr r.1 ac co st :: cs, true)
      else
        let rs := addUnderList t node pos cs
        (ComponentSchema.mk i ty pr ch ac co st :: rs.1, rs.2)

end

mutual

/-- Replace the subtree rooted at the first preorder node with the given
id by a new subtree; the new subtree's own id becomes authoritative and
the old id is retired (spec 4.2 morph). -/
def morphFirstList (t : String) (node : ComponentSchema) : List ComponentSchema → List ComponentSchema × Bool
  | [] => ([], false)
  | .mk i ty pr ch ac co st :: cs =>
    if i = t then (node :: cs, true)
    else
      let r := morphFirstList t node ch
      if r.2 then (ComponentSchema.mk i ty pr r.1 ac co st :: cs, true)
      else
        let rs := morphFirstList t node cs
        (ComponentSchema.mk i ty pr ch ac co st :: rs.1, rs.2)

end

mutual

/-- Replace the children of the first preorder node with the given id
(the structural half of spec 4.2 reorder). -/
def setChildrenFirst (t : String) (newCh : List ComponentSchema) : List ComponentSchema → List ComponentSchema × Bool
  | [] => ([], false)
  | .mk i ty pr ch ac co st :: cs =>
    if i = t then (ComponentSchema.mk i ty pr newCh ac co st :: cs, true)
    else if (setChildrenFirst t newCh ch).2 then
      (ComponentSchema.mk i ty pr (setChildrenFirst t newCh ch).1 ac co st :: cs, true)
    else (ComponentSchema.mk i ty pr ch ac co st :: (setChildrenFirst t newCh cs).1,
      (setChildrenFirst t newCh cs).2)

end

/-- First child with the given id in a children list. -/
def findChild (i : String) (cs : List ComponentSchema) : Option ComponentSchema :=
  cs.find? (fun c => c.cid = i)

/-- The children list rearranged to the requested order: each id in the
order picks its child (spec 4.2 reorder). -/
def reorderChildren (cs : List ComponentSchema) (ord : List String) : List ComponentSchema :=
  ord.filterMap (fun i => findChild i cs)

/-- Modelled from the spec (4.2): after structural application the
Applier re-validates the produced document's uniqueness invariant and
fails atomically rather than commit an inconsistent document. -/
def checkUnique (D : TamboSchema) : Except EvolutionError TamboSchema :=
  if (nodeIdsList D.components).Nodup then .ok D else .error .DuplicateId

/-- Modelled from the spec (4.2, EvolutionEngine.ts is not in the
repository): the Evolution Applier, a pure function from the current
document and one operation to the next document or a typed failure.
Target resolution is a single depth-first preorder search; a missing
target is TargetNotFound; reorder must present a permutation of the
current children ids; add, update and morph re-check id uniqueness. -/
def applyEvolution (D : TamboSchema) : EvolutionOp → Except EvolutionError TamboSchema
  | .add none node pos =>
    checkUnique { D with components := insertAt D.components pos node }
  | .add (some p) node pos =>
    if (addUnderList p node pos D.components).2 then
      checkUnique { D with components := (addUnderList p node pos D.components).1 }
    else .error .TargetNotFound
  | .remove t =>
    if (removeFirstList t D.components).2 then
      .ok { D with components := (removeFirstList t D.components).1 }
    else .error .TargetNotFound
  | .update t p =>
    if (updateFirstList t p D.components).2 then
      checkUnique { D with components := (updateFirstList t p D.components).1 }
    else .error .TargetNotFound
  | .morph t node =>
    if (morphFirstList t node D.components).2 then
      checkUnique { D with components := (morphFirstList t node D.components).1 }
    else .error .TargetNotFound
  | .reorder none ord =>
    if ord.Perm (D.components.map ComponentSchema.cid)
    then .ok { D with components := reorderChildren D.components ord }
    else .error .InvalidReorder
  | .reorder (some t) ord =>
    match findNode t D.components with
    | none => .error .TargetNotFound
    | some n =>
      if ord.Perm (n.children.map ComponentSchema.cid)
      then .ok { D with components := (setChildrenFirst t (reorderChildren n.children ord) D.components).1 }
      else .error .InvalidReorder

mutual

/-- Modelled from the spec (4.3 processCandidate) and the repository's
implementation guide (Step 4, Schema Enrichment): each node's Registry-
declared default props are merged beneath, not over, the node's own
props, recursively through the tree. -/
def enrichNode (reg : Registry) : ComponentSchema → ComponentSchema
  | .mk i ty pr ch ac co st =>
    let base := match regFind reg ty with
      | some d => d.defaultProps
      | none => []
    .mk i ty (mergeProps base pr) (enrichList reg ch) ac co st

def enrichList (reg : Registry) : List ComponentSchema → List ComponentSchema
  | [] => []
  | c :: cs => enrichNode reg c :: enrichList reg cs

end

/-- The engine version stamped into processing metadata (from the
repository's implementation guide, Step 4). -/
def engineVersionTag : String := "1.0.0"

/-- Stamp processing metadata: timestamp and engine version
(spec 4.3 processCandidate). -/
def stampMeta (clock : String) (d : TamboSchema) : TamboSchema :=
  { d with metadata :=
      { d.metadata with processedAt := some clock, engineVersion := some engineVersionTag } }

/-- EngineError taxonomy: a failed cycle surfaces either the Validator's
errors or a typed evolution failure (spec section 7). -/
inductive EngineError where
  | validationFailed (errors : List String)
  | evolutionFailed (e : EvolutionError)
deriving DecidableEq

/-- The history depth bound of the Version Store (spec section 3: an
append-only, depth-bounded sequence of committed documents). -/
def maxHistory : Nat := 50

/-- Modelled from the spec (sections 2, 3 and 4.3; TamboEngine.ts is not
in the repository): the Engine owns the Version Store — the bounded,
ordered history of committed documents with a cursor to the authoritative
current one — the read-only Registry, a monotone version counter, and the
injected timestamp source used for metadata stamping. -/
structure EngineState where
  registry : Registry
  history : List TamboSchema
  cursor : Nat
  lastVersion : Nat
  clock : String

/-- getCurrent: the current authoritative document, none before the
first commit (spec 4.3). -/
def getCurrent (s : EngineState) : Option TamboSchema :=
  s.history.get? s.cursor

/-- Modelled from the spec (sections 3 and 4.3): committing truncates the
redo branch beyond the cursor, appends the new document with the next
version tag, evicts the oldest entries beyond the depth bound, and moves
the cursor to the new document.  Returns the committed document and the
new state. -/
def commitDoc (s : EngineState) (d : TamboSchema) : TamboSchema × EngineState :=
  let d2 := { d with version := s.lastVersion + 1 }
  let h := s.history.take (s.cursor + 1) ++ [d2]
  let h2 := if maxHistory < h.length then h.drop (h.length - maxHistory) else h
  (d2, { s with history := h2, cursor := h2.length - 1, lastVersion := s.lastVersion + 1 })

/-- Modelled from the spec (4.3): processCandidate runs the Validator;
on success it enriches the result with registry default props beneath the
candidate's own, stamps processing metadata, and commits it as a brand-
new document built only from the validated candidate and the registry.
On failure it returns the Validator's errors and commits nothing. -/
def processCandidate (s : EngineState) (c : TamboSchema) : Except EngineError TamboSchema × EngineState :=
  match (validate s.registry c).schema with
  | some v =>
    (.ok (commitDoc s (stampMeta s.clock { v with components := enrichList s.registry v.components })).1,
     (commitDoc s (stampMeta s.clock { v with components := enrichList s.registry v.components })).2)
  | none => (.error (.validationFailed (validate s.registry c).errors), s)

/-- Modelled from the spec (4.3): processEvolution runs the Evolution
Applier against the current document, re-validates the produced document
with the Validator, and only then commits.  Any failure — no current
document, a typed applier failure, or a validation failure — leaves the
state untouched. -/
def processEvolution (s : EngineState) (op : EvolutionOp) : Except EngineError TamboSchema × EngineState :=
  match getCurrent s with
  | none => (.error (.evolutionFailed .TargetNotFound), s)
  | some cur =>
    match applyEvolution cur op with
    | .error e => (.error (.evolutionFailed e), s)
    | .ok d =>
      match (validate s.registry d).schema with
      | some v => (.ok (commitDoc s v).1, (commitDoc s v).2)
      | none => (.error (.validationFailed (validate s.registry d).errors), s)

/-- Modelled from the spec (4.3): rewind moves the Version Store cursor
one step back; at the history boundary it is a no-op whose flag reports
that nothing moved. -/
def rewind (s : EngineState) : EngineState × Bool :=
  if s.cursor = 0 then (s, false)
  else ({ s with cursor := s.cursor - 1 }, true)

/-- Modelled from the spec (4.3): advance moves the cursor one step
forward; at the history boundary it is a reported no-op. -/
def advance (s : EngineState) : EngineState × Bool :=
  if s.cursor + 1 < s.history.length then ({ s with cursor := s.cursor + 1 }, true)
  else (s, false)

/-- One submission to the Engine: a candidate document, an evolution
operation, or a cursor move (spec section 2). -/
inductive EngineOp where
  | candidate (c : TamboSchema)
  | evolve (op : EvolutionOp)
  | stepBack
  | stepForward

/-- One Engine cycle together with the list of documents it committed
(empty on failure and on cursor moves, a singleton on a commit). -/
def stepCommits (s : EngineState) : EngineOp → EngineState × List TamboSchema
  | .candidate c =>
    match processCandidate s c with
    | (.ok d, s2) => (s2, [d])
    | (.error _, s2) => (s2, [])
  | .evolve op =>
    match processEvolution s op with
    | (.ok d, s2) => (s2, [d])
    | (.error _, s2) => (s2, [])
  | .stepBack => ((rewind s).1, [])
  | .stepForward => ((advance s).1, [])

/-- A serialized sequence of Engine cycles (spec section 5: submissions
are serialized in arrival order) with the trace of committed documents. -/
def runOps (s : EngineState) : List EngineOp → EngineState × List TamboSchema
  | [] => (s, [])
  | o :: os =>
    ((runOps (stepCommits s o).1 os).1,
      (stepCommits s o).2 ++ (runOps (stepCommits s o).1 os).2)

/-
Concrete fixtures used by the witness theorems: a small registry and
documents in the shape of the spec's Scenario A.
-/

/-- A metadata value for witness documents. -/
def wMeta : SchemaMetadata := ⟨"demo", "t0", "conv-1", none, none, none, []⟩

/-- A grid layout for witness documents. -/
def wLayout : LayoutConfig := ⟨"grid", some 3, none, none, none, none, []⟩

/-- A stat-card node with id a. -/
def wNodeA : ComponentSchema := .mk "a" "stat-card" [("title", .vstr "Tasks")] [] [] [] none

/-- A table node with id b. -/
def wNodeB : ComponentSchema := .mk "b" "table" [] [] [] [] none

/-- A registry knowing stat-card and table, with permissive predicates
and a default title for stat-card. -/
def wRegistry : Registry :=
  [("stat-card", ⟨fun _ => true, [("title", .vstr "Untitled"), ("trend", .vstr "+0")], some "data-display", none⟩),
   ("table", ⟨fun _ => true, [], some "data-display", none⟩)]

/-- A valid one-node document. -/
def wDoc : TamboSchema := ⟨"d1", 1, "screen", wLayout, [wNodeA], wMeta, none⟩

/-- A document with two nodes sharing the id a. -/
def wDupDoc : TamboSchema := ⟨"d2", 1, "screen", wLayout, [wNodeA, wNodeA], wMeta, none⟩

/-- An engine state holding the one-node document as current. -/
def wState : EngineState := ⟨wRegistry, [wDoc], 0, 1, "2024-02-03T10:30:00Z"⟩

/-- An engine state with two documents and the cursor on the second. -/
def wState2 : EngineState := ⟨wRegistry, [wDoc, { wDoc with version := 2 }], 1, 2, "2024-02-03T10:30:00Z"⟩

/-- A patch for the update operation, with record-like (duplicate-free)
prop keys. -/
def wPatch : NodePatch := ⟨[("title", .vstr "Renamed")], none, none, none⟩

/-- The document the engine commits for processCandidate wState wDoc:
enriched with the stat-card defaults beneath the candidate props,
stamped, and tagged with the next version. -/
def wProcessed : TamboSchema :=
  ⟨"d1", 2, "screen", wLayout,
    [.mk "a" "stat-card" [("title", .vstr "Tasks"), ("trend", .vstr "+0")] [] [] [] none],
    ⟨"demo", "t0", "conv-1", none, some "2024-02-03T10:30:00Z", some "1.0.0", []⟩, none⟩

/-- The document the engine commits for adding the table node b under the
root of the one-node document: nodes a then b, next version. -/
def wAdded : TamboSchema := ⟨"d1", 2, "screen", wLayout, [wNodeA, wNodeB], wMeta, none⟩

/-
Helper lemmas shared by the claim theorems.
-/

/-- A failing processEvolution returns the state it was given. -/
theorem processEvolution_error_state (s : EngineState) (op : EvolutionOp) (e : EngineError)
    (h : (processEvolution s op).1 = Except.error e) : (processEvolution s op).2 = s := by
  unfold processEvolution at *
  cases hc : getCurrent s with
  | none => simp [hc]
  | some cur =>
    cases ha : applyEvolution cur op with
    | error e2 => simp [hc, ha]
    | ok d =>
      cases hv : (validate s.registry d).schema with
      | none => simp [hc, ha, hv]
      | some v => simp [hc, ha, hv] at h

/-- A failing processCandidate returns the state it was given. -/
theorem processCandidate_error_state (s : EngineState) (c : TamboSchema) (e : EngineError)
    (h : (processCandidate s c).1 = Except.error e) : (processCandidate s c).2 = s := by
  unfold processCandidate at *
  cases hv : (validate s.registry c).schema with
  | none => simp [hv]
  | some v => simp [hv] at h

/-- Dropping at most the prefix of the left part distributes over append. -/
theorem drop_append_le {α : Type _} : ∀ (l₁ l₂ : List α) (k : Nat), k ≤ l₁.length →
    (l₁ ++ l₂).drop k = l₁.drop k ++ l₂ := by
  intro l₁
  induction l₁ with
  | nil =>
    intro l₂ k hk
    have : k = 0 := Nat.le_zero.mp hk
    subst this
    simp
  | cons a l ih =>
    intro l₂ k hk
    cases k with
    | zero => simp
    | succ n => simpa using ih l₂ n (Nat.le_of_succ_le_succ hk)

/-- The element index of the last position of a list ending in a. -/
theorem get?_concat_last {α : Type _} (l : List α) (a : α) :
    (l ++ [a]).get? ((l ++ [a]).length - 1) = some a := by
  have h : (l ++ [a]).length - 1 = l.length := by simp
  rw [h]
  exact List.get?_concat_length l a

/-- After a commit, the current document is the document just committed. -/
theorem getCurrent_commitDoc (s : EngineState) (d : TamboSchema) :
    getCurrent (commitDoc s d).2 = some (commitDoc s d).1 := by
  unfold commitDoc getCurrent
  simp only []
  set d2 : TamboSchema := { d with version := s.lastVersion + 1 } with hd2
  set pre : List TamboSchema := s.history.take (s.cursor + 1) with hpre
  by_cases h : maxHistory < (pre ++ [d2]).length
  · have hm : 0 < maxHistory := by decide
    have hk : (pre ++ [d2]).length - maxHistory ≤ pre.length := by
      simp only [List.length_append, List.length_singleton]
      omega
    simp only [h, if_pos]
    rw [drop_append_le pre [d2] _ hk]
    exact get?_concat_last _ _
  · simp only [h, if_neg, if_false]
    exact get?_concat_last pre d2

/-- A commit tags the committed document with the next version and bumps
the engine's version counter to it. -/
theorem commitDoc_version (s : EngineState) (d : TamboSchema) :
    (commitDoc s d).1.version = s.lastVersion + 1 ∧
    (commitDoc s d).2.lastVersion = s.lastVersion + 1 := by
  unfold commitDoc
  constructor <;> rfl

/-
Claim theorems.
-/

/-- C1: for every current document and every evolution operation, if
processEvolution fails (with an EvolutionError or a ValidationError) then
getCurrent after the call equals getCurrent before the call; no partially
applied document is ever committed (the failing cycle returns the state
unchanged). -/
theorem claim_C1_atomicity (s : EngineState) (op : EvolutionOp) (e : EngineError)
    (h : (processEvolution s op).1 = Except.error e) :
    getCurrent (processEvolution s op).2 = getCurrent s := by
  rw [processEvolution_error_state s op e h]

/-- C4: when rewind succeeds, advancing with no intervening commit makes
getCurrent return exactly the document that was current before the
rewind; at a history boundary rewind and advance are reported no-ops. -/
theorem claim_C4_round_trip (s : EngineState) (h : s.cursor < s.history.length) :
    ((rewind s).2 = true → getCurrent (advance (rewind s).1).1 = getCurrent s) ∧
    ((rewind s).2 = false → (rewind s).1 = s) ∧
    ((advance s).2 = false → (advance s).1 = s) := by
  refine ⟨?_, ?_, ?_⟩
  · intro hr
    unfold rewind at hr ⊢
    by_cases h0 : s.cursor = 0
    · simp [h0] at hr
    · simp only [h0, if_neg, if_false]
      unfold advance getCurrent
      have hlt : s.cursor - 1 + 1 < s.history.length := by omega
      simp only [hlt, if_pos]
      have hc : s.cursor - 1 + 1 = s.cursor := by omega
      simp [hc]
  · intro hr
    unfold rewind at *
    by_cases h0 : s.cursor = 0
    · simp [h0]
    · simp [h0] at hr
  · intro hr
    unfold advance at *
    by_cases h0 : s.cursor + 1 < s.history.length
    · simp [h0] at hr
    · simp [h0]

/-- C6: validate is deterministic and side-effect-free; it is a pure
function of the read-only registry and the candidate, so two calls with
the same input yield identical ValidationResults, and no state observable
by a caller changes (validate takes no state and returns only a result). -/
theorem claim_C6_deterministic (reg : Registry) (D1 D2 : TamboSchema) (h : D1 = D2) :
    validate reg D1 = validate reg D2 := by
  rw [h]

/-- C10: every action-binding update value has an operation drawn from
add, remove, update, morph; under the natural inclusion into the
evolution-operation kinds no SchemaUpdate operation is reorder, even
though reorder is one of the evolution-operation kinds. -/
theorem claim_C10_no_reorder_update (u : SchemaUpdate) (o : SchemaUpdateOp)
    (tg : Option String) (ord : List String) :
    (u.operation = SchemaUpdateOp.add ∨ u.operation = SchemaUpdateOp.remove ∨
      u.operation = SchemaUpdateOp.update ∨ u.operation = SchemaUpdateOp.morph) ∧
    schemaUpdateOpToEvolution o ≠ EvolutionActionType.reorder ∧
    (EvolutionOp.reorder tg ord).kind = EvolutionActionType.reorder := by
  refine ⟨?_, ?_, rfl⟩
  · cases u with
    | mk t o2 sc an => cases o2 <;> simp [SchemaUpdate.operation]
  · cases o <;> simp [schemaUpdateOpToEvolution]

/-- A clean scan reaching the end means no element repeats and none was
already seen. -/
theorem firstDupAux_none : ∀ (l : List String) (seen : List String),
    firstDupAux seen l = none → l.Nodup ∧ ∀ x ∈ l, x ∉ seen := by
  intro l
  induction l with
  | nil => intro seen _; simp
  | cons x xs ih =>
    intro seen h
    unfold firstDupAux at h
    by_cases hx : x ∈ seen
    · simp [hx] at h
    · simp only [hx, if_neg, if_false] at h
      obtain ⟨h1, h2⟩ := ih (x :: seen) h
      refine ⟨List.nodup_cons.mpr ⟨?_, h1⟩, ?_⟩
      · intro hxin
        exact (h2 x hxin) (List.mem_cons_self x seen)
      · intro y hy
        rcases List.mem_cons.mp hy with hy1 | hy2
        · rw [hy1]; exact hx
        · intro hys
          exact (h2 y hy2) (List.mem_cons_of_mem x hys)

/-- A reported duplicate is the element at the first position whose value
already occurred: the prefix before it is duplicate-free (relative to the
initial seen set) and contains the reported value. -/
theorem firstDupAux_some : ∀ (l : List String) (seen : List String) (d : String),
    firstDupAux seen l = some d →
    ∃ n, l.get? n = some d ∧ (d ∈ seen ∨ d ∈ l.take n) ∧
      (∀ k y, k < n → l.get? k = some y → y ∉ seen) ∧ (l.take n).Nodup := by
  intro l
  induction l with
  | nil => intro seen d h; simp [firstDupAux] at h
  | cons x xs ih =>
    intro seen d h
    unfold firstDupAux at h
    by_cases hx : x ∈ seen
    · rw [if_pos hx] at h
      injection h with h
      subst h
      exact ⟨0, rfl, Or.inl hx, fun k y hk _ => absurd hk (Nat.not_lt_zero k), by simp⟩
    · rw [if_neg hx] at h
      obtain ⟨m, hm1, hm2, hm3, hm4⟩ := ih (x :: seen) d h
      refine ⟨m + 1, by simpa using hm1, ?_, ?_, ?_⟩
      · rcases hm2 with hm2 | hm2
        · rcases List.mem_cons.mp hm2 with he | he
          · right; rw [List.take_succ_cons]; rw [he]; exact List.mem_cons_self x _
          · left; exact he
        · right; rw [List.take_succ_cons]; exact List.mem_cons_of_mem x hm2
      · intro k y hk hget
        cases k with
        | zero =>
          simp only [List.get?] at hget
          injection hget with hget
          rw [← hget]; exact hx
        | succ j =>
          have hj : j < m := Nat.lt_of_succ_lt_succ hk
          have : y ∉ x :: seen := hm3 j y hj (by simpa using hget)
          intro hys
          exact this (List.mem_cons_of_mem x hys)
      · rw [List.take_succ_cons]
        refine List.nodup_cons.mpr ⟨?_, hm4⟩
        intro hxin
        obtain ⟨k, hk⟩ := List.mem_iff_get?.mp hxin
        have hklt : k < m := by
          have := List.get?_eq_some.mp hk
          have hlen : k < (xs.take m).length := this.1
          have : (xs.take m).length ≤ m := by simp
          omega
        have hxk : xs.get? k = some x := by
          rw [← List.get?_take hklt]
          exact hk
        exact (hm3 k x hklt hxk) (List.mem_cons_self x seen)

/-- The duplicate scan returns none exactly on duplicate-free lists. -/
theorem firstDup_none (l : List String) (h : firstDup l = none) : l.Nodup :=
  (firstDupAux_none l [] h).1

/-- The duplicate scan reports the first repeated value in scan order. -/
theorem firstDup_some (l : List String) (d : String) (h : firstDup l = some d) :
    ∃ n, l.get? n = some d ∧ d ∈ l.take n ∧ (l.take n).Nodup := by
  obtain ⟨n, h1, h2, _, h4⟩ := firstDupAux_some l [] d h
  rcases h2 with h2 | h2
  · simp at h2
  · exact ⟨n, h1, h2, h4⟩

/-- C2: a candidate whose tree holds two component nodes with the same
id, wherever they occur in the tree, is rejected by the Validator; once
the structural shape check passes, the reported error names the first
duplicate encountered in depth-first preorder (the element at the first
position of the preorder id list whose value already occurred in the
duplicate-free prefix before it). -/
theorem claim_C2_duplicate_ids (reg : Registry) (D : TamboSchema)
    (h : ¬ (nodeIdsList D.components).Nodup) :
    (validate reg D).valid = false ∧
    (D.stype ∈ schemaTypes ∧ D.layout.mode ∈ layoutModes →
      ∃ d n, (validate reg D).errors = ["Duplicate component id: " ++ d] ∧
        (nodeIdsList D.components).get? n = some d ∧
        d ∈ (nodeIdsList D.components).take n ∧
        ((nodeIdsList D.components).take n).Nodup) := by
  have hfd : ∃ d, firstDup (nodeIdsList D.components) = some d := by
    cases hh : firstDup (nodeIdsList D.components) with
    | none => exact absurd (firstDup_none _ hh) h
    | some d => exact ⟨d, rfl⟩
  obtain ⟨d, hd⟩ := hfd
  constructor
  · unfold validate
    by_cases hs : D.stype ∈ schemaTypes ∧ D.layout.mode ∈ layoutModes
    · rw [if_pos hs, hd]
    · rw [if_neg hs]
  · intro hs
    obtain ⟨n, h1, h2, h3⟩ := firstDup_some _ _ hd
    refine ⟨d, n, ?_, h1, h2, h3⟩
    unfold validate
    rw [if_pos hs, hd]

/-- C2 witness: the concrete two-node document sharing the id a is
rejected. -/
theorem claim_C2_duplicate_ids_witness :
    (¬ (nodeIdsList wDupDoc.components).Nodup) ∧ (validate wRegistry wDupDoc).valid = false :=
  ⟨by decide, (claim_C2_duplicate_ids wRegistry wDupDoc (by decide)).1⟩

set_option maxRecDepth 10000 in
/-- C1 witness: removing a missing id from the concrete one-document
engine fails and leaves the current document in place. -/
theorem claim_C1_atomicity_witness :
    getCurrent (processEvolution wState (.remove "zzz")).2 = getCurrent wState :=
  claim_C1_atomicity wState (.remove "zzz")
    (.evolutionFailed .TargetNotFound) (by with_unfolding_all rfl)

/-- C4 witness: on the concrete two-document engine, rewind then advance
restores the current document. -/
theorem claim_C4_round_trip_witness :
    getCurrent (advance (rewind wState2).1).1 = getCurrent wState2 :=
  (claim_C4_round_trip wState2 (by decide)).1 (by rfl)

/-- C6 witness: validating the concrete document twice yields the same
result. -/
theorem claim_C6_deterministic_witness :
    validate wRegistry wDoc = validate wRegistry wDoc :=
  claim_C6_deterministic wRegistry wDoc wDoc rfl

/-- C3: the Validator and the Evolution Applier signal failure only
through their returned values: validate always returns a ValidationResult
whose valid flag, error list and schema field agree (on an invalid
candidate valid is false, the errors are non-empty and no schema is
produced), and the Applier always returns either a document or a typed
EvolutionError; both are total functions, so no abrupt termination
exists. -/
theorem claim_C3_structured_errors (reg : Registry) (D : TamboSchema) (op : EvolutionOp) :
    (((validate reg D).valid = true ∧ (validate reg D).errors = [] ∧ (validate reg D).schema ≠ none) ∨
     ((validate reg D).valid = false ∧ (validate reg D).errors ≠ [] ∧ (validate reg D).schema = none)) ∧
    ((∃ d, applyEvolution D op = Except.ok d) ∨ (∃ e, applyEvolution D op = Except.error e)) := by
  constructor
  · unfold validate
    by_cases hs : D.stype ∈ schemaTypes ∧ D.layout.mode ∈ layoutModes
    · rw [if_pos hs]
      cases hd : firstDup (nodeIdsList D.components) with
      | some d => right; exact ⟨rfl, by simp, rfl⟩
      | none =>
        dsimp only
        by_cases he : (typeErrorsList reg D.components ++ propErrorsList reg D.components
            ++ refErrors D).isEmpty = true
        · left
          rw [if_pos he]
          exact ⟨rfl, rfl, by simp⟩
        · right
          rw [if_neg he]
          refine ⟨rfl, ?_, rfl⟩
          intro hnil
          apply he
          have h2 : typeErrorsList reg D.components ++ propErrorsList reg D.components
              ++ refErrors D = [] := hnil
          rw [h2]
          rfl
    · rw [if_neg hs]
      exact Or.inr ⟨rfl, by simp, rfl⟩
  · cases h : applyEvolution D op with
    | ok d => left; exact ⟨d, rfl⟩
    | error e => right; exact ⟨e, rfl⟩

/-- Lookup distributes over append, preferring the left part. -/
theorem lookup_append (k : String) : ∀ (a b : Props),
    lookupProp k (a ++ b) =
      match lookupProp k a with
      | some v => some v
      | none => lookupProp k b := by
  intro a b
  induction a with
  | nil => rfl
  | cons q l ih =>
    simp only [List.cons_append, lookupProp]
    by_cases hk : q.1 = k
    · rw [if_pos hk, if_pos hk]
    · rw [if_neg hk, if_neg hk]
      exact ih

/-- Lookup is the value of the first entry with the key. -/
theorem lookup_eq_find (k : String) : ∀ (l : Props),
    lookupProp k l = (l.find? (fun q => q.1 = k)).map Prod.snd := by
  intro l
  induction l with
  | nil => rfl
  | cons q rest ih =>
    simp only [lookupProp]
    by_cases hk : q.1 = k
    · rw [if_pos hk, List.find?_cons_of_pos _ (by simp [hk])]
      rfl
    · rw [if_neg hk, List.find?_cons_of_neg _ (by simp [hk])]
      exact ih

/-- Lookup through a key-preserving map rewrites the found value. -/
theorem lookup_map_keyed (k : String) (f : String × Value → String × Value)
    (hf : ∀ q, (f q).1 = q.1) : ∀ (base : Props),
    lookupProp k (base.map f) = (base.find? (fun q => q.1 = k)).map (fun b => (f b).2) := by
  intro base
  induction base with
  | nil => rfl
  | cons q rest ih =>
    simp only [List.map_cons, lookupProp]
    by_cases hk : q.1 = k
    · rw [if_pos (by rw [hf q]; exact hk), List.find?_cons_of_pos _ (by simp [hk])]
      rfl
    · rw [if_neg (by rw [hf q]; exact hk), List.find?_cons_of_neg _ (by simp [hk])]
      exact ih

/-- A filter that keeps every entry with the key is invisible to lookup. -/
theorem lookup_filter_true (k : String) (p : String × Value → Bool) :
    ∀ (l : Props), (∀ q ∈ l, q.1 = k → p q = true) →
    lookupProp k (l.filter p) = lookupProp k l := by
  intro l
  induction l with
  | nil => intro _; rfl
  | cons q rest ih =>
    intro h
    have hrest : ∀ q2 ∈ rest, q2.1 = k → p q2 = true :=
      fun q2 hq2 => h q2 (List.mem_cons_of_mem q hq2)
    by_cases hk : q.1 = k
    · rw [List.filter_cons_of_pos (h q (List.mem_cons_self q rest) hk)]
      simp only [lookupProp]
      rw [if_pos hk, if_pos hk]
    · cases hp : p q with
      | true =>
        rw [List.filter_cons_of_pos hp]
        simp only [lookupProp]
        rw [if_neg hk, if_neg hk]
        exact ih hrest
      | false =>
        rw [List.filter_cons_of_neg (by simp [hp])]
        simp only [lookupProp]
        rw [if_neg hk]
        exact ih hrest

/-- The central merge fact: a key bound by the overriding mapping gets
the overriding value, a key bound only by the base keeps the base value
— defaults merged beneath, never over. -/
theorem lookup_mergeProps (k : String) (base over : Props) :
    lookupProp k (mergeProps base over) =
      match lookupProp k over with
      | some v => some v
      | none => lookupProp k base := by
  unfold mergeProps
  rw [lookup_append]
  rw [lookup_map_keyed k _ (fun q => by cases hq : lookupProp q.1 over <;> simp [hq])]
  cases hb : base.find? (fun q => q.1 = k) with
  | some b =>
    have hbk : b.1 = k := by
      have := List.find?_some hb
      exact of_decide_eq_true this
    rw [Option.map_some']
    rw [hbk]
    cases ho : lookupProp k over with
    | some v => rfl
    | none =>
      show some b.2 = lookupProp k base
      rw [lookup_eq_find, hb]
      rfl
  | none =>
    rw [Option.map_none']
    have hbase : lookupProp k base = none := by
      rw [lookup_eq_find, hb]
      rfl
    show lookupProp k (List.filter (fun q => (lookupProp q.1 base).isNone) over) =
      match lookupProp k over with
      | some v => some v
      | none => lookupProp k base
    rw [lookup_filter_true k _ over (fun q hq hqk => by
      rw [hqk, hbase]
      rfl)]
    cases ho : lookupProp k over with
    | some v => rfl
    | none => exact hbase.symm

/-- The validated schema, the commit and the stamps of a successful
processCandidate. -/
theorem processCandidate_ok (s : EngineState) (c d : TamboSchema) (s2 : EngineState)
    (h : processCandidate s c = (Except.ok d, s2)) :
    ∃ v, (validate s.registry c).schema = some v ∧
      d = (commitDoc s (stampMeta s.clock { v with components := enrichList s.registry v.components })).1 ∧
      s2 = (commitDoc s (stampMeta s.clock { v with components := enrichList s.registry v.components })).2 := by
  unfold processCandidate at h
  cases hv : (validate s.registry c).schema with
  | none => rw [hv] at h; simp at h
  | some v =>
    rw [hv] at h
    rw [Prod.mk.injEq] at h
    obtain ⟨h1, h2⟩ := h
    injection h1 with h1
    exact ⟨v, rfl, h1.symm, h2.symm⟩

/-- C8: a successfully processed candidate is committed as a brand-new
document built only from the validated candidate and the registry: its
components are the validated components with each node's registry default
props merged beneath the node's own props, its metadata carries the
processing timestamp and engine version, and it becomes the current
document; the merge puts the candidate's values over the defaults
(lookup prefers the overriding mapping at every key). -/
theorem claim_C8_enrichment (s : EngineState) (c d : TamboSchema) (base over : Props) (k : String)
    (h : (processCandidate s c).1 = Except.ok d) :
    (∃ v, (validate s.registry c).schema = some v ∧
      d.components = enrichList s.registry v.components ∧
      d.metadata.processedAt = some s.clock ∧
      d.metadata.engineVersion = some engineVersionTag ∧
      getCurrent (processCandidate s c).2 = some d) ∧
    lookupProp k (mergeProps base over) =
      (match lookupProp k over with
       | some v => some v
       | none => lookupProp k base) := by
  refine ⟨?_, lookup_mergeProps k base over⟩
  have hpair : processCandidate s c = (Except.ok d, (processCandidate s c).2) := by
    rw [← h]
  obtain ⟨v, hv, hd, hs2⟩ := processCandidate_ok s c d (processCandidate s c).2 hpair
  refine ⟨v, hv, ?_, ?_, ?_, ?_⟩
  · rw [hd]; rfl
  · rw [hd]; rfl
  · rw [hd]; rfl
  · rw [hs2, hd]
    exact getCurrent_commitDoc s _

set_option maxRecDepth 20000 in
/-- C8 witness: processing the concrete candidate commits the enriched,
stamped document as current. -/
theorem claim_C8_enrichment_witness :
    getCurrent (processCandidate wState wDoc).2 = some wProcessed := by
  obtain ⟨⟨v, _, _, _, _, hg⟩, _⟩ :=
    claim_C8_enrichment wState wDoc wProcessed [] [] "title" (by with_unfolding_all rfl)
  exact hg

/-- A found child carries the searched id. -/
theorem findChild_cid (i : String) (cs : List ComponentSchema) (c : ComponentSchema)
    (h : findChild i cs = some c) : c.cid = i := by
  unfold findChild at h
  have h2 := List.find?_some h
  simp only [decide_eq_true_eq] at h2
  exact h2

/-- Every id present among the children ids finds a child. -/
theorem findChild_of_mem (i : String) : ∀ (cs : List ComponentSchema),
    i ∈ cs.map ComponentSchema.cid → ∃ c, findChild i cs = some c ∧ c.cid = i := by
  intro cs
  induction cs with
  | nil => intro h; simp at h
  | cons c rest ih =>
    intro h
    by_cases hc : c.cid = i
    · exact ⟨c, List.find?_cons_of_pos _ (by simp [hc]), hc⟩
    · have : i ∈ rest.map ComponentSchema.cid := by
        rw [List.map_cons] at h
        rcases List.mem_cons.mp h with h1 | h1
        · exact absurd h1.symm hc
        · exact h1
      obtain ⟨c2, hc2, hcid⟩ := ih this
      exact ⟨c2, by rw [findChild, List.find?_cons_of_neg _ (by simp [hc])]; exact hc2, hcid⟩

/-- Rearranged children carry exactly the requested ids in the requested
order. -/
theorem reorderChildren_map_cid (cs : List ComponentSchema) : ∀ (ord : List String),
    (∀ i ∈ ord, i ∈ cs.map ComponentSchema.cid) →
    (reorderChildren cs ord).map ComponentSchema.cid = ord := by
  intro ord
  induction ord with
  | nil => intro _; rfl
  | cons i rest ih =>
    intro h
    obtain ⟨c, hc, hcid⟩ := findChild_of_mem i cs (h i (List.mem_cons_self i rest))
    unfold reorderChildren at *
    rw [List.filterMap_cons, hc]
    simp only [List.map_cons]
    rw [hcid, ih (fun j hj => h j (List.mem_cons_of_mem i hj))]

/-- The children replacement finds a node exactly when the preorder
search does. -/
theorem setChildrenFirst_flag (t : String) (newCh : List ComponentSchema) :
    ∀ (cs : List ComponentSchema), (setChildrenFirst t newCh cs).2 = (findNode t cs).isSome
  | [] => by simp [setChildrenFirst, findNode]
  | .mk i ty pr ch ac co st :: cs => by
    simp only [setChildrenFirst, findNode]
    by_cases hi : i = t
    · rw [if_pos hi, if_pos hi]
      rfl
    · rw [if_neg hi, if_neg hi]
      have hch := setChildrenFirst_flag t newCh ch
      have hcs := setChildrenFirst_flag t newCh cs
      cases hfch : findNode t ch with
      | some nn =>
        rw [hfch] at hch
        have htrue : (setChildrenFirst t newCh ch).2 = true := by rw [hch]; rfl
        rw [if_pos htrue]
        rfl
      | none =>
        rw [hfch] at hch
        have hfalse : (setChildrenFirst t newCh ch).2 = false := by rw [hch]; rfl
        rw [if_neg (by rw [hfalse]; simp)]
        exact hcs

/-- Replacing the found node's children leaves it findable at the same
id, now carrying exactly the new children; every other node keeps its
place. -/
theorem setChildrenFirst_find (t : String) (newCh : List ComponentSchema) :
    ∀ (cs : List ComponentSchema) (n : ComponentSchema), findNode t cs = some n →
      ∃ n2, findNode t (setChildrenFirst t newCh cs).1 = some n2 ∧ n2.children = newCh
  | [] => fun n h => absurd h (by simp [findNode])
  | .mk i ty pr ch ac co st :: cs => fun n h => by
    simp only [findNode] at h
    by_cases hi : i = t
    · refine ⟨ComponentSchema.mk i ty pr newCh ac co st, ?_, rfl⟩
      simp only [setChildrenFirst]
      rw [if_pos hi]
      show findNode t (ComponentSchema.mk i ty pr newCh ac co st :: cs) =
        some (ComponentSchema.mk i ty pr newCh ac co st)
      simp only [findNode]
      rw [if_pos hi]
    · rw [if_neg hi] at h
      cases hfch : findNode t ch with
      | some nn =>
        have hflag : (setChildrenFirst t newCh ch).2 = true := by
          rw [setChildrenFirst_flag t newCh ch, hfch]
          rfl
        obtain ⟨n2, hn2, hch2⟩ := setChildrenFirst_find t newCh ch nn hfch
        refine ⟨n2, ?_, hch2⟩
        simp only [setChildrenFirst]
        rw [if_neg hi, if_pos hflag]
        show findNode t
            (ComponentSchema.mk i ty pr (setChildrenFirst t newCh ch).1 ac co st :: cs) =
          some n2
        simp only [findNode]
        rw [if_neg hi, hn2]
      | none =>
        rw [hfch] at h
        have h2 : findNode t cs = some n := h
        have hflag : (setChildrenFirst t newCh ch).2 = false := by
          rw [setChildrenFirst_flag t newCh ch, hfch]
          rfl
        obtain ⟨n2, hn2, hch2⟩ := setChildrenFirst_find t newCh cs n h2
        refine ⟨n2, ?_, hch2⟩
        simp only [setChildrenFirst]
        rw [if_neg hi, if_neg (by rw [hflag]; simp)]
        show findNode t
            (ComponentSchema.mk i ty pr ch ac co st :: (setChildrenFirst t newCh cs).1) =
          some n2
        simp only [findNode]
        rw [if_neg hi, hfch]
        show findNode t (setChildrenFirst t newCh cs).1 = some n2
        exact hn2

/-- C9: a reorder whose order list is not a permutation of the target's
current children ids — an id that is not currently a child, or an omitted
child — fails with InvalidReorder, and a failing reorder submission
leaves the current document unchanged; a successful reorder replaces the
target's children with exactly the requested permutation of their
existing ids, never adding or removing nodes — at the document root and,
through the last conjunct, at any resolved target: the target still
resolves in the result and its children ids there are exactly the
requested order, a permutation of the previously existing child ids. -/
theorem claim_C9_reorder :
    (∀ (D : TamboSchema) (ord : List String),
      ¬ ord.Perm (D.components.map ComponentSchema.cid) →
      applyEvolution D (.reorder none ord) = Except.error EvolutionError.InvalidReorder) ∧
    (∀ (D : TamboSchema) (t : String) (n : ComponentSchema) (ord : List String),
      findNode t D.components = some n →
      ¬ ord.Perm (n.children.map ComponentSchema.cid) →
      applyEvolution D (.reorder (some t) ord) = Except.error EvolutionError.InvalidReorder) ∧
    (∀ (s : EngineState) (tg : Option String) (ord : List String) (e : EngineError),
      (processEvolution s (.reorder tg ord)).1 = Except.error e →
      getCurrent (processEvolution s (.reorder tg ord)).2 = getCurrent s) ∧
    (∀ (D D2 : TamboSchema) (ord : List String),
      applyEvolution D (.reorder none ord) = Except.ok D2 →
      D2.components.map ComponentSchema.cid = ord ∧
      ord.Perm (D.components.map ComponentSchema.cid)) ∧
    (∀ (D D2 : TamboSchema) (t : String) (n : ComponentSchema) (ord : List String),
      findNode t D.components = some n →
      applyEvolution D (.reorder (some t) ord) = Except.ok D2 →
      (findNode t D2.components).map (fun n2 => n2.children.map ComponentSchema.cid) =
        some ord ∧
      ord.Perm (n.children.map ComponentSchema.cid)) := by
  refine ⟨?_, ?_, ?_, ?_, ?_⟩
  · intro D ord h
    simp only [applyEvolution]
    rw [if_neg h]
  · intro D t n ord hf h
    simp only [applyEvolution]
    rw [hf]
    dsimp only
    rw [if_neg h]
  · intro s tg ord e h
    rw [processEvolution_error_state s _ e h]
  · intro D D2 ord h
    simp only [applyEvolution] at h
    by_cases hp : ord.Perm (D.components.map ComponentSchema.cid)
    · rw [if_pos hp] at h
      injection h with h
      subst h
      refine ⟨?_, hp⟩
      exact reorderChildren_map_cid D.components ord (fun i hi => hp.subset hi)
    · rw [if_neg hp] at h
      simp at h
  · intro D D2 t n ord hfind happ
    simp only [applyEvolution] at happ
    rw [hfind] at happ
    dsimp only at happ
    by_cases hp : ord.Perm (n.children.map ComponentSchema.cid)
    · rw [if_pos hp] at happ
      injection happ with happ
      subst happ
      refine ⟨?_, hp⟩
      have hcomp : ({ D with components :=
          (setChildrenFirst t (reorderChildren n.children ord) D.components).1 } :
          TamboSchema).components =
          (setChildrenFirst t (reorderChildren n.children ord) D.components).1 := rfl
      rw [hcomp]
      obtain ⟨n2, hn2, hch⟩ :=
        setChildrenFirst_find t (reorderChildren n.children ord) D.components n hfind
      rw [hn2, Option.map_some']
      rw [hch]
      rw [reorderChildren_map_cid n.children ord (fun i hi => hp.subset hi)]
    · rw [if_neg hp] at happ
      simp at happ

set_option maxRecDepth 20000 in
/-- C9 witness: on the concrete one-node document, reordering to a
foreign id fails, reordering the root to the identity permutation
succeeds with exactly the existing ids, and a targeted reorder of node a
to the empty order leaves a findable with exactly those children ids. -/
theorem claim_C9_reorder_witness :
    applyEvolution wDoc (.reorder none ["zzz"]) = Except.error EvolutionError.InvalidReorder ∧
    wDoc.components.map ComponentSchema.cid = ["a"] ∧
    (findNode "a" wDoc.components).map (fun n2 => n2.children.map ComponentSchema.cid) =
      some ([] : List String) :=
  ⟨claim_C9_reorder.1 wDoc ["zzz"] (by decide),
   (claim_C9_reorder.2.2.2.1 wDoc wDoc ["a"] (by with_unfolding_all rfl)).1,
   (claim_C9_reorder.2.2.2.2 wDoc wDoc "a" wNodeA [] (by with_unfolding_all rfl)
      (by with_unfolding_all rfl)).1⟩

/-- The version bump, the counter bump and the cursor of a successful
processCandidate. -/
theorem processCandidate_ok_version (s : EngineState) (c d : TamboSchema) (s2 : EngineState)
    (h : processCandidate s c = (Except.ok d, s2)) :
    d.version = s.lastVersion + 1 ∧ s2.lastVersion = s.lastVersion + 1 ∧ getCurrent s2 = some d := by
  obtain ⟨v, hv, hd, hs2⟩ := processCandidate_ok s c d s2 h
  subst hd
  subst hs2
  exact ⟨(commitDoc_version s _).1, (commitDoc_version s _).2, getCurrent_commitDoc s _⟩

/-- The version bump, the counter bump and the cursor of a successful
processEvolution. -/
theorem processEvolution_ok (s : EngineState) (op : EvolutionOp) (d : TamboSchema) (s2 : EngineState)
    (h : processEvolution s op = (Except.ok d, s2)) :
    d.version = s.lastVersion + 1 ∧ s2.lastVersion = s.lastVersion + 1 ∧ getCurrent s2 = some d := by
  unfold processEvolution at h
  cases hc : getCurrent s with
  | none => simp only [hc] at h; simp at h
  | some cur =>
    simp only [hc] at h
    cases ha : applyEvolution cur op with
    | error e => simp only [ha] at h; simp at h
    | ok dd =>
      simp only [ha] at h
      cases hv : (validate s.registry dd).schema with
      | none => simp only [hv] at h; simp at h
      | some v =>
        simp only [hv] at h
        rw [Prod.mk.injEq] at h
        obtain ⟨h1, h2⟩ := h
        injection h1 with h1
        subst h2
        rw [← h1]
        exact ⟨(commitDoc_version s _).1, (commitDoc_version s _).2, getCurrent_commitDoc s _⟩

/-- Cursor moves never change the version counter. -/
theorem rewind_lastVersion (s : EngineState) :
    (rewind s).1.lastVersion = s.lastVersion ∧ (advance s).1.lastVersion = s.lastVersion := by
  constructor
  · unfold rewind
    by_cases h0 : s.cursor = 0 <;> simp [h0]
  · unfold advance
    by_cases h0 : s.cursor + 1 < s.history.length <;> simp [h0]

/-- One Engine cycle either commits nothing and leaves the version
counter in place, or commits exactly one document carrying the next
version, to which the counter moves. -/
theorem stepCommits_shape (s : EngineState) (o : EngineOp) :
    ((stepCommits s o).2 = [] ∧ s.lastVersion ≤ (stepCommits s o).1.lastVersion) ∨
    (∃ d, (stepCommits s o).2 = [d] ∧ d.version = s.lastVersion + 1 ∧
      (stepCommits s o).1.lastVersion = s.lastVersion + 1) := by
  cases o with
  | candidate c =>
    simp only [stepCommits]
    cases hp : processCandidate s c with
    | mk r s2 =>
      cases r with
      | ok d =>
        right
        obtain ⟨h1, h2, _⟩ := processCandidate_ok_version s c d s2 hp
        exact ⟨d, rfl, h1, h2⟩
      | error e =>
        left
        refine ⟨rfl, ?_⟩
        have hs : (processCandidate s c).2 = s :=
          processCandidate_error_state s c e (by rw [hp])
        rw [hp] at hs
        have hs2 : s2 = s := hs
        subst hs2
        exact le_refl _
  | evolve op =>
    simp only [stepCommits]
    cases hp : processEvolution s op with
    | mk r s2 =>
      cases r with
      | ok d =>
        right
        obtain ⟨h1, h2, _⟩ := processEvolution_ok s op d s2 hp
        exact ⟨d, rfl, h1, h2⟩
      | error e =>
        left
        refine ⟨rfl, ?_⟩
        have hs : (processEvolution s op).2 = s :=
          processEvolution_error_state s op e (by rw [hp])
        rw [hp] at hs
        have hs2 : s2 = s := hs
        subst hs2
        exact le_refl _
  | stepBack =>
    left
    exact ⟨rfl, le_of_eq ((rewind_lastVersion s).1).symm⟩
  | stepForward =>
    left
    exact ⟨rfl, le_of_eq ((rewind_lastVersion s).2).symm⟩

/-- The run invariant: every committed document's version exceeds the
version counter the run started from and is bounded by the final
counter, the committed versions strictly increase along the trace, and
the counter never decreases. -/
theorem runOps_spec : ∀ (ops : List EngineOp) (s : EngineState),
    (∀ d ∈ (runOps s ops).2, s.lastVersion < d.version ∧ d.version ≤ (runOps s ops).1.lastVersion) ∧
    List.Chain' (fun a b => a.version < b.version) (runOps s ops).2 ∧
    s.lastVersion ≤ (runOps s ops).1.lastVersion := by
  intro ops
  induction ops with
  | nil =>
    intro s
    exact ⟨by simp [runOps], by simp [runOps], le_refl _⟩
  | cons o os ih =>
    intro s
    obtain ⟨ihmem, ihchain, ihmono⟩ := ih (stepCommits s o).1
    simp only [runOps]
    rcases stepCommits_shape s o with ⟨hnil, hle⟩ | ⟨d, hd, hdv, hlv⟩
    · rw [hnil]
      simp only [List.nil_append]
      refine ⟨?_, ihchain, le_trans hle ihmono⟩
      intro d2 hd2
      exact ⟨lt_of_le_of_lt hle (ihmem d2 hd2).1, (ihmem d2 hd2).2⟩
    · rw [hd]
      simp only [List.singleton_append]
      have hdcur : d.version = (stepCommits s o).1.lastVersion := by rw [hdv, hlv]
      refine ⟨?_, ?_, ?_⟩
      · intro d2 hd2
        rcases List.mem_cons.mp hd2 with h2 | h2
        · subst h2
          exact ⟨by rw [hdv]; exact Nat.lt_succ_self _, by rw [hdcur]; exact ihmono⟩
        · refine ⟨?_, (ihmem d2 h2).2⟩
          have := (ihmem d2 h2).1
          rw [hlv] at this
          exact lt_trans (Nat.lt_succ_self _) this
      · refine List.chain'_cons'.mpr ⟨?_, ihchain⟩
        intro b hb
        have hbmem : b ∈ (runOps (stepCommits s o).1 os).2 := List.mem_of_mem_head? hb
        rw [hdcur]
        exact (ihmem b hbmem).1
      · have hmono2 : s.lastVersion + 1 ≤ (runOps (stepCommits s o).1 os).1.lastVersion := by
          rw [← hlv]
          exact ihmono
        exact le_trans (Nat.le_succ _) hmono2

/-- C7: across every sequence of Engine cycles the committed documents'
version tags strictly increase (each commit takes the next value of the
monotone version counter); in particular, when the current document's
version equals the counter, committing the result of a single add
operation produces a current document whose version is the previous
version incremented by one. -/
theorem claim_C7_version_monotonic :
    (∀ (s : EngineState) (ops : List EngineOp),
      List.Chain' (fun a b => a.version < b.version) (runOps s ops).2) ∧
    (∀ (s : EngineState) (par : Option String) (node : ComponentSchema) (pos : Option Nat)
        (d cur : TamboSchema),
      getCurrent s = some cur → s.lastVersion = cur.version →
      (processEvolution s (.add par node pos)).1 = Except.ok d →
      d.version = cur.version + 1 ∧
      getCurrent (processEvolution s (.add par node pos)).2 = some d) := by
  constructor
  · intro s ops
    exact (runOps_spec ops s).2.1
  · intro s par node pos d cur _ hl h
    have hpair : processEvolution s (.add par node pos) =
        (Except.ok d, (processEvolution s (.add par node pos)).2) := by
      rw [← h]
    obtain ⟨h1, _, h3⟩ := processEvolution_ok s _ d _ hpair
    exact ⟨by rw [h1, hl], h3⟩

set_option maxRecDepth 20000 in
/-- C7 witness: on the concrete engine, the run submitting a single add
has a strictly increasing commit trace, and the committed document's
version is the previous version plus one. -/
theorem claim_C7_version_monotonic_witness :
    List.Chain' (fun a b => a.version < b.version)
      (runOps wState [.evolve (.add none wNodeB none)]).2 ∧
    wAdded.version = wDoc.version + 1 :=
  ⟨claim_C7_version_monotonic.1 wState _,
   (claim_C7_version_monotonic.2 wState none wNodeB none wAdded wDoc rfl rfl
      (by with_unfolding_all rfl)).1⟩

/-- A map that fixes every member is the identity. -/
theorem map_eq_self_of {α : Type _} (f : α → α) : ∀ (l : List α),
    (∀ x ∈ l, f x = x) → l.map f = l := by
  intro l
  induction l with
  | nil => intro _; rfl
  | cons a rest ih =>
    intro h
    rw [List.map_cons, h a (List.mem_cons_self a rest),
      ih (fun x hx => h x (List.mem_cons_of_mem a hx))]

/-- A filter that rejects every member empties the list. -/
theorem filter_eq_nil_of {α : Type _} (p : α → Bool) : ∀ (l : List α),
    (∀ x ∈ l, p x = false) → l.filter p = [] := by
  intro l
  induction l with
  | nil => intro _; rfl
  | cons a rest ih =>
    intro h
    rw [List.filter_cons_of_neg (by simp [h a (List.mem_cons_self a rest)]),
      ih (fun x hx => h x (List.mem_cons_of_mem a hx))]

/-- A key present in the mapping is found by lookup. -/
theorem lookup_isSome_of_key_mem (k : String) : ∀ (l : Props),
    k ∈ l.map Prod.fst → ∃ v, lookupProp k l = some v := by
  intro l
  induction l with
  | nil => intro h; simp at h
  | cons q rest ih =>
    intro h
    by_cases hk : q.1 = k
    · exact ⟨q.2, by simp [lookupProp, hk]⟩
    · have h2 : k ∈ rest.map Prod.fst := by
        rw [List.map_cons] at h
        rcases List.mem_cons.mp h with h1 | h1
        · exact absurd h1.symm hk
        · exact h1
      obtain ⟨v, hv⟩ := ih h2
      exact ⟨v, by simp only [lookupProp]; rw [if_neg hk]; exact hv⟩

/-- In a mapping with pairwise distinct keys, lookup of an entry's key
returns that entry's value. -/
theorem lookup_self_of_nodup : ∀ (l : Props), (l.map Prod.fst).Nodup →
    ∀ q ∈ l, lookupProp q.1 l = some q.2 := by
  intro l
  induction l with
  | nil => intro _ q hq; simp at hq
  | cons e rest ih =>
    intro hnd q hq
    rw [List.map_cons, List.nodup_cons] at hnd
    obtain ⟨he, hnd2⟩ := hnd
    rcases List.mem_cons.mp hq with h1 | h1
    · subst h1
      simp [lookupProp]
    · have hne : e.1 ≠ q.1 := by
        intro hcontra
        exact he (hcontra ▸ List.mem_map_of_mem Prod.fst h1)
      simp only [lookupProp]
      rw [if_neg hne]
      exact ih hnd2 q h1

/-- Merging the same record-like mapping twice is the same as merging it
once. -/
theorem mergeProps_idem (base over : Props) (hnd : (over.map Prod.fst).Nodup) :
    mergeProps (mergeProps base over) over = mergeProps base over := by
  have h1 : over.filter (fun q => (lookupProp q.1 (mergeProps base over)).isNone) = [] := by
    apply filter_eq_nil_of
    intro q hq
    rw [lookup_mergeProps]
    obtain ⟨v, hv⟩ := lookup_isSome_of_key_mem q.1 over (List.mem_map_of_mem Prod.fst hq)
    rw [hv]
    rfl
  have h2 : (mergeProps base over).map (fun q =>
      match lookupProp q.1 over with
      | some v => (q.1, v)
      | none => q) = mergeProps base over := by
    apply map_eq_self_of
    intro x hx
    unfold mergeProps at hx
    rcases List.mem_append.mp hx with hx | hx
    · obtain ⟨b, _, hb⟩ := List.mem_map.mp hx
      rw [← hb]
      cases hq : lookupProp b.1 over with
      | some v => rw [hq]
      | none => rw [hq]
    · have hxo : x ∈ over := (List.mem_filter.mp hx).1
      rw [lookup_self_of_nodup over hnd x hxo]
  conv_lhs => rw [mergeProps]
  rw [h1, h2, List.append_nil]

/-- Merging a partial twice is merging it once, for record-like partial
props. -/
theorem applyPatch_idem (p : NodePatch) (hnd : (p.pprops.map Prod.fst).Nodup)
    (c : ComponentSchema) : applyPatch p (applyPatch p c) = applyPatch p c := by
  cases c with
  | mk i ty pr ch ac co st =>
    show ComponentSchema.mk i ty (mergeProps (mergeProps pr p.pprops) p.pprops)
        (p.pchildren.getD (p.pchildren.getD ch)) (p.pactions.getD (p.pactions.getD ac))
        (p.pconditions.getD (p.pconditions.getD co)) st =
      ComponentSchema.mk i ty (mergeProps pr p.pprops) (p.pchildren.getD ch)
        (p.pactions.getD ac) (p.pconditions.getD co) st
    rw [mergeProps_idem pr p.pprops hnd]
    cases p.pchildren <;> cases p.pactions <;> cases p.pconditions <;> rfl

mutual

/-- A search that found no target changed nothing in one subtree. -/
theorem updateFirst_nf (t : String) (p : NodePatch) :
    ∀ (c : ComponentSchema), (updateFirst t p c).2 = false → (updateFirst t p c).1 = c
  | .mk i ty pr ch ac co st => fun h => by
    unfold updateFirst at h ⊢
    by_cases hi : i = t
    · rw [if_pos hi] at h
      simp at h
    · rw [if_neg hi] at h ⊢
      have h2 : (updateFirstList t p ch).2 = false := h
      have h3 := updateFirstList_nf t p ch h2
      show ComponentSchema.mk i ty pr (updateFirstList t p ch).1 ac co st =
        ComponentSchema.mk i ty pr ch ac co st
      rw [h3]

/-- A search that found no target changed nothing in a forest. -/
theorem updateFirstList_nf (t : String) (p : NodePatch) :
    ∀ (cs : List ComponentSchema), (updateFirstList t p cs).2 = false → (updateFirstList t p cs).1 = cs
  | [] => fun _ => rfl
  | c :: cs => fun h => by
    unfold updateFirstList at h ⊢
    by_cases hc : (updateFirst t p c).2
    · rw [if_pos hc] at h
      simp at h
    · rw [if_neg hc] at h ⊢
      have h2 : (updateFirstList t p cs).2 = false := h
      have h3 := updateFirstList_nf t p cs h2
      show c :: (updateFirstList t p cs).1 = c :: cs
      rw [h3]

end

mutual

/-- Updating one subtree a second time with the same record-like patch
reproduces the first result and the same found flag. -/
theorem updateFirst_idem (t : String) (p : NodePatch) (hnd : (p.pprops.map Prod.fst).Nodup) :
    ∀ (c : ComponentSchema), updateFirst t p (updateFirst t p c).1 = updateFirst t p c
  | .mk i ty pr ch ac co st => by
    by_cases hi : i = t
    · have e1 : updateFirst t p (ComponentSchema.mk i ty pr ch ac co st) =
          (applyPatch p (ComponentSchema.mk i ty pr ch ac co st), true) := by
        unfold updateFirst
        rw [if_pos hi]
      rw [e1]
      show updateFirst t p (applyPatch p (ComponentSchema.mk i ty pr ch ac co st)) =
        (applyPatch p (ComponentSchema.mk i ty pr ch ac co st), true)
      have e2 : applyPatch p (ComponentSchema.mk i ty pr ch ac co st) =
          ComponentSchema.mk i ty (mergeProps pr p.pprops) (p.pchildren.getD ch)
            (p.pactions.getD ac) (p.pconditions.getD co) st := rfl
      rw [e2]
      unfold updateFirst
      rw [if_pos hi]
      rw [← e2]
      rw [applyPatch_idem p hnd (ComponentSchema.mk i ty pr ch ac co st)]
    · have e1 : updateFirst t p (ComponentSchema.mk i ty pr ch ac co st) =
          (ComponentSchema.mk i ty pr (updateFirstList t p ch).1 ac co st,
            (updateFirstList t p ch).2) := by
        unfold updateFirst
        rw [if_neg hi]
      rw [e1]
      show updateFirst t p (ComponentSchema.mk i ty pr (updateFirstList t p ch).1 ac co st) =
        (ComponentSchema.mk i ty pr (updateFirstList t p ch).1 ac co st,
          (updateFirstList t p ch).2)
      unfold updateFirst
      rw [if_neg hi]
      rw [updateFirstList_idem t p hnd ch]

/-- Updating a forest a second time with the same record-like patch
reproduces the first result and the same found flag. -/
theorem updateFirstList_idem (t : String) (p : NodePatch) (hnd : (p.pprops.map Prod.fst).Nodup) :
    ∀ (cs : List ComponentSchema), updateFirstList t p (updateFirstList t p cs).1 = updateFirstList t p cs
  | [] => rfl
  | c :: cs => by
    have e0 : updateFirstList t p (c :: cs) =
        if (updateFirst t p c).2 = true then ((updateFirst t p c).1 :: cs, true)
        else (c :: (updateFirstList t p cs).1, (updateFirstList t p cs).2) := rfl
    by_cases hc : (updateFirst t p c).2
    · have e1 : updateFirstList t p (c :: cs) = ((updateFirst t p c).1 :: cs, true) := by
        rw [e0, if_pos hc]
      rw [e1]
      show updateFirstList t p ((updateFirst t p c).1 :: cs) = ((updateFirst t p c).1 :: cs, true)
      have e2 : updateFirstList t p ((updateFirst t p c).1 :: cs) =
          if (updateFirst t p (updateFirst t p c).1).2 = true then
            ((updateFirst t p (updateFirst t p c).1).1 :: cs, true)
          else ((updateFirst t p c).1 :: (updateFirstList t p cs).1,
            (updateFirstList t p cs).2) := rfl
      rw [e2]
      rw [updateFirst_idem t p hnd c]
      rw [if_pos hc]
    · have e1 : updateFirstList t p (c :: cs) =
          (c :: (updateFirstList t p cs).1, (updateFirstList t p cs).2) := by
        rw [e0, if_neg hc]
      rw [e1]
      show updateFirstList t p (c :: (updateFirstList t p cs).1) =
        (c :: (updateFirstList t p cs).1, (updateFirstList t p cs).2)
      have econs : updateFirstList t p (c :: (updateFirstList t p cs).1) =
          if (updateFirst t p c).2 = true then
            ((updateFirst t p c).1 :: (updateFirstList t p cs).1, true)
          else (c :: (updateFirstList t p (updateFirstList t p cs).1).1,
            (updateFirstList t p (updateFirstList t p cs).1).2) := rfl
      rw [econs]
      rw [if_neg hc]
      rw [updateFirstList_idem t p hnd cs]

end

/-- The unfolded form of the Applier's update case. -/
theorem applyEvolution_update_eq (D : TamboSchema) (t : String) (p : NodePatch) :
    applyEvolution D (.update t p) =
      if (updateFirstList t p D.components).2 then
        (if (nodeIdsList (updateFirstList t p D.components).1).Nodup then
          Except.ok { D with components := (updateFirstList t p D.components).1 }
        else Except.error EvolutionError.DuplicateId)
      else Except.error EvolutionError.TargetNotFound := rfl

/-- C5: for a document in which the update's target resolves and a fixed
record-like partial, applying the same update twice yields the same
result as applying it once — the props merge, the wholesale replacements
and the post-application uniqueness check are all idempotent. -/
theorem claim_C5_update_idempotent (D : TamboSchema) (t : String) (p : NodePatch)
    (_hres : t ∈ nodeIdsList D.components) (hnd : (p.pprops.map Prod.fst).Nodup) :
    (applyEvolution D (.update t p)).bind (fun D2 => applyEvolution D2 (.update t p)) =
      applyEvolution D (.update t p) := by
  rw [applyEvolution_update_eq D t p]
  by_cases hf : (updateFirstList t p D.components).2
  · rw [if_pos hf]
    by_cases hu : (nodeIdsList (updateFirstList t p D.components).1).Nodup
    · rw [if_pos hu]
      show applyEvolution { D with components := (updateFirstList t p D.components).1 }
          (.update t p) =
        Except.ok { D with components := (updateFirstList t p D.components).1 }
      rw [applyEvolution_update_eq]
      have hcomp : ({ D with components := (updateFirstList t p D.components).1 } :
          TamboSchema).components = (updateFirstList t p D.components).1 := rfl
      rw [hcomp]
      rw [updateFirstList_idem t p hnd D.components]
      rw [if_pos hf, if_pos hu]
    · rw [if_neg hu]
      rfl
  · rw [if_neg hf]
    rfl

/-- C5 witness: updating the concrete document's node a twice with the
concrete patch equals updating it once. -/
theorem claim_C5_update_idempotent_witness :
    (applyEvolution wDoc (.update "a" wPatch)).bind
        (fun D2 => applyEvolution D2 (.update "a" wPatch)) =
      applyEvolution wDoc (.update "a" wPatch) :=
  claim_C5_update_idempotent wDoc "a" wPatch (by decide) (by decide)

end Tambo
